import Mathlib

/-!
# Verification of the `stash` command logger

A shallow embedding of `src/main.rs` of the `stash` repository: a supervisor
that runs a command, tees its stdout/stderr to the terminal and to a
timestamped log file, and prunes the log directory down to a retention bound.

File names are modelled as byte lists (`Name := List Nat`), ordered by the
byte-lexicographic order that Rust's `PathBuf` ordering induces for entries of
one directory.  Streams are byte lists; fallible operations take explicit
success oracles or `Except` inputs.
-/

namespace Stash

/-- A file (or program) name: the bytes of its `OsStr`. -/
abbrev Name := List Nat

/-- Byte-lexicographic `≤` on names: the order `logs.sort_by_key(|e| e.path())`
uses for entries of a single directory. -/
def nameLe : Name → Name → Bool
  | [], _ => true
  | _ :: _, [] => false
  | x :: xs, y :: ys => if x < y then true else if y < x then false else nameLe xs ys

/-- The relation `nameLe` as a proposition. -/
def NLe (a b : Name) : Prop := nameLe a b = true

instance (a b : Name) : Decidable (NLe a b) := by
  unfold NLe
  infer_instance

/-- Rust `Path::extension` on a file name: the part after the last `.` (byte 46),
`none` when there is no `.` or when the only `.` is the leading byte of the
name (hidden files such as `.log` have no extension). -/
def extension (name : Name) : Option Name :=
  let e := name.reverse.takeWhile (fun b => b ≠ 46)
  if e.length = name.length then none
  else if e.length + 1 = name.length then none
  else some e.reverse

/-- The classifier `rotate_old` filters directory entries with:
`e.path().extension().and_then(|s| s.to_str()) == Some("log")`. -/
def isLogName (n : Name) : Bool := extension n == some [108, 111, 103]

/-- Insert a name into a (sorted) list of names, keeping `nameLe` order. -/
def insertSorted (x : Name) : List Name → List Name
  | [] => [x]
  | y :: ys => if nameLe x y then x :: y :: ys else y :: insertSorted x ys

/-- Sorting the collected entries by path, as `logs.sort_by_key(|e| e.path())`:
for entries of one directory this is the byte-lexicographic order of names. -/
def sortNames : List Name → List Name
  | [] => []
  | x :: xs => insertSorted x (sortNames xs)

/-- Rust `Vec::dedup`: removes only consecutive duplicates (after sorting this is a
full deduplication). -/
def dedupConsec : List Name → List Name
  | [] => []
  | [a] => [a]
  | a :: b :: rest =>
    if a = b then dedupConsec (b :: rest) else a :: dedupConsec (b :: rest)

/-- Steps 6–8 of `main`: the config-file ignore list, extended by the CLI
`--ignore` entries, then `sort()` and `dedup()`. -/
def mergeIgnore (cfgIgnore cliIgnore : List Name) : List Name :=
  dedupConsec (sortNames (cfgIgnore ++ cliIgnore))

/-- Step 10 of `main`: `ignore_list.iter().any(|p| p == prog)` where `prog` is
`opts.cmd[0]`, the first command token exactly as given. -/
def bypassDecision (ignoreList : List Name) (prog : Name) : Bool :=
  ignoreList.any (fun p => p == prog)

/-- Modelled from the spec: the "base command name" of an invoked program — the
path component after the last `/` (byte 47).  `main` itself never computes
this; it is needed only to state the spec's claim about path invocations. -/
def baseNameSpec (p : Name) : Name :=
  (p.reverse.takeWhile (fun b => b ≠ 47)).reverse

/-- The deletion loop of `rotate_old`:
`while logs.len() > retain { let old = logs.remove(0); let _ = remove_file(old); }`.
Returns the names passed to `remove_file`, in deletion order. -/
def rotateLoop (retain : Nat) : List Name → List Name
  | [] => []
  | old :: rest =>
    if rest.length + 1 > retain then old :: rotateLoop retain rest else []

/-- The function `rotate_old(dir, retain)` on a successfully listed directory: collect the
entries whose extension is `log`, sort by path, and run the deletion loop.
The result is the list of attempted deletions, oldest name first. -/
def rotate_old (dir : List Name) (retain : Nat) : List Name :=
  rotateLoop retain (sortNames (dir.filter isLogName))

/-- Directory contents after `rotate_old`, given which `remove_file` calls
succeed (`delOk`); a failed deletion leaves its file in place. -/
def afterRotate (dir : List Name) (retain : Nat) (delOk : Name → Bool) : List Name :=
  dir.filter (fun e => !((rotate_old dir retain).contains e && delOk e))

/-- The deletion loop with each `remove_file` outcome recorded.  The loop body
discards the result (`let _ = fs::remove_file(..)`), so the outcome never
influences which further files are attempted. -/
def rotateLoopRun (retain : Nat) (delOk : Name → Bool) : List Name → List (Name × Bool)
  | [] => []
  | old :: rest =>
    if rest.length + 1 > retain then (old, delOk old) :: rotateLoopRun retain delOk rest
    else []

/-- The whole `rotate_old` function as run: `fs::read_dir(dir)?` may fail, and
the `?` propagates that failure to the caller; on success the function always
returns `Ok` regardless of the individual deletion outcomes. -/
def rotate_old_run (listing : Except Nat (List Name)) (retain : Nat)
    (delOk : Name → Bool) : Except Nat (List (Name × Bool)) :=
  match listing with
  | .error e => .error e
  | .ok entries => .ok (rotateLoopRun retain delOk (sortNames (entries.filter isLogName)))

/-- One `read_until(b'\n')` step on the buffered pipe: the bytes up to and
including the first newline (byte 10), or everything remaining at end of
stream, together with the unread rest. -/
def takeLine : List Nat → List Nat × List Nat
  | [] => ([], [])
  | b :: rest =>
    if b = 10 then ([b], rest)
    else (b :: (takeLine rest).1, (takeLine rest).2)

theorem takeLine_append : ∀ s : List Nat, (takeLine s).1 ++ (takeLine s).2 = s
  | [] => rfl
  | b :: rest => by
    by_cases h : b = 10
    · simp [takeLine, h]
    · simp [takeLine, h, takeLine_append rest]

theorem takeLine_fst_length : ∀ s : List Nat, s ≠ [] → 1 ≤ (takeLine s).1.length
  | [], h => absurd rfl h
  | b :: rest, _ => by
    by_cases h : b = 10 <;> simp [takeLine, h]

theorem takeLine_snd_lt (s : List Nat) (h : s ≠ []) :
    (takeLine s).2.length < s.length := by
  have h1 := takeLine_fst_length s h
  have h2 := congrArg List.length (takeLine_append s)
  rw [List.length_append] at h2
  omega

/-- A UTF-8 continuation byte, `0x80 ..= 0xBF`. -/
def contByte (b : Nat) : Bool := 128 ≤ b && b ≤ 191

/-- Validity of a byte sequence as UTF-8, exactly the check
`String::from_utf8` performs inside `BufRead::read_line`. -/
def utf8Valid : List Nat → Bool
  | [] => true
  | b :: rest =>
    if b ≤ 127 then utf8Valid rest
    else if 194 ≤ b && b ≤ 223 then
      match rest with
      | c1 :: rest2 => contByte c1 && utf8Valid rest2
      | [] => false
    else if b = 224 then
      match rest with
      | c1 :: c2 :: rest2 => (160 ≤ c1 && c1 ≤ 191) && contByte c2 && utf8Valid rest2
      | _ => false
    else if 225 ≤ b && b ≤ 236 then
      match rest with
      | c1 :: c2 :: rest2 => contByte c1 && contByte c2 && utf8Valid rest2
      | _ => false
    else if b = 237 then
      match rest with
      | c1 :: c2 :: rest2 => (128 ≤ c1 && c1 ≤ 159) && contByte c2 && utf8Valid rest2
      | _ => false
    else if 238 ≤ b && b ≤ 239 then
      match rest with
      | c1 :: c2 :: rest2 => contByte c1 && contByte c2 && utf8Valid rest2
      | _ => false
    else if b = 240 then
      match rest with
      | c1 :: c2 :: c3 :: rest2 =>
        (144 ≤ c1 && c1 ≤ 191) && contByte c2 && contByte c3 && utf8Valid rest2
      | _ => false
    else if 241 ≤ b && b ≤ 243 then
      match rest with
      | c1 :: c2 :: c3 :: rest2 =>
        contByte c1 && contByte c2 && contByte c3 && utf8Valid rest2
      | _ => false
    else if b = 244 then
      match rest with
      | c1 :: c2 :: c3 :: rest2 =>
        (128 ≤ c1 && c1 ≤ 143) && contByte c2 && contByte c3 && utf8Valid rest2
      | _ => false
    else false

/-- Fuelled helper for `linesValid`; the fuel only forces structural
termination and is irrelevant once it is at least the stream length
(`linesValidF_fuel`). -/
def linesValidF : Nat → List Nat → Bool
  | 0, _ => true
  | _ + 1, [] => true
  | fuel + 1, b :: rest0 =>
    utf8Valid (takeLine (b :: rest0)).1 && linesValidF fuel (takeLine (b :: rest0)).2

/-- Every `read_line` unit of the stream is valid UTF-8, so the loop in
`spawn_tee` reaches end of stream without a read error. -/
def linesValid (s : List Nat) : Bool := linesValidF s.length s

/-- Result of one tee thread: the bytes it wrote to its terminal stream and to
the log file, and whether it finished the loop (`done`) or panicked on a
failed `unwrap` of a write (`panicked`). -/
inductive TeeOutcome where
  | done (term : List Nat) (log : List Nat) : TeeOutcome
  | panicked (term : List Nat) (log : List Nat) : TeeOutcome
deriving DecidableEq, Repr

/-- Bytes the thread wrote to its terminal stream. -/
def TeeOutcome.termBytes : TeeOutcome → List Nat
  | .done t _ => t
  | .panicked t _ => t

/-- Bytes the thread wrote to the log file. -/
def TeeOutcome.logBytes : TeeOutcome → List Nat
  | .done _ l => l
  | .panicked _ l => l

/-- Did the thread panic? -/
def TeeOutcome.isPanic : TeeOutcome → Bool
  | .done _ _ => false
  | .panicked _ _ => true

/-- Fuelled helper for `teeRun`; the fuel only forces structural termination
and is irrelevant once it is at least the stream length (`teeRunF_fuel`). -/
def teeRunF (termOk logOk : Nat → Bool) : Nat → Nat → List Nat → TeeOutcome
  | 0, _, _ => .done [] []
  | _ + 1, _, [] => .done [] []
  | fuel + 1, i, b :: rest0 =>
    if utf8Valid (takeLine (b :: rest0)).1 then
      if termOk i then
        if logOk i then
          match teeRunF termOk logOk fuel (i + 1) (takeLine (b :: rest0)).2 with
          | .done t l =>
            .done ((takeLine (b :: rest0)).1 ++ t) ((takeLine (b :: rest0)).1 ++ l)
          | .panicked t l =>
            .panicked ((takeLine (b :: rest0)).1 ++ t) ((takeLine (b :: rest0)).1 ++ l)
        else .panicked (takeLine (b :: rest0)).1 []
      else .panicked [] []
    else .done [] []

/-- The loop of `spawn_tee`: `read_line` a unit (stopping the loop on end of
stream or on a read error, via `unwrap_or(0)`); write it to the terminal then
to the log, each write `unwrap`ped — a failed write (`termOk i` resp. `logOk i`
false at the `i`-th iteration) panics the thread.  `teeRun_nil` and
`teeRun_cons` below are the loop equations. -/
def teeRun (termOk logOk : Nat → Bool) (i : Nat) (s : List Nat) : TeeOutcome :=
  teeRunF termOk logOk s.length i s

/-- The child's wait status: `status.code()` is `some c` on normal exit and
`none` when the child was terminated abnormally (e.g. by a signal). -/
structure ChildStatus where
  code : Option Nat
deriving DecidableEq, Repr

/-- How the supervisor process itself ends: `std::process::exit(c)`, or a
panic of the main thread (a failed `unwrap`, e.g. of a `join` result). -/
inductive SupOutcome where
  | exited (code : Nat) : SupOutcome
  | panicked : SupOutcome
deriving DecidableEq, Repr

/-- Steps 13–14 of `main`: `child.wait()` then
`handle_out.join().unwrap(); handle_err.join().unwrap();
std::process::exit(status.code().unwrap_or(1))`.  Joining a panicked tee
thread yields `Err`, whose `unwrap` panics the supervisor. -/
def supervisorFinish (outR errR : TeeOutcome) (status : ChildStatus) : SupOutcome :=
  if outR.isPanic then .panicked
  else if errR.isPanic then .panicked
  else .exited (status.code.getD 1)

/-- Observable result of one invocation of `main`. -/
structure InvocationResult where
  dir : List Name
  created : Option Name
  bypassed : Bool
  outcome : SupOutcome
deriving DecidableEq, Repr

/-- One invocation of `main`, after argument parsing and `create_dir_all`:
1. `rotate_old(&opts.log_dir, opts.retain)` (deletions applied per `delOk`);
2. `fs::File::create` of the fresh timestamped `newName` — before any ignore
   check, so the file exists in both modes;
3. build the merged ignore list and look up `prog = opts.cmd[0]`;
4. bypass mode execs the child with inherited stdio and exits with
   `status.code().unwrap_or(1)`; captured mode tees the pipes (the two thread
   outcomes `outR`, `errR` are parameters) and finishes via
   `supervisorFinish`. -/
def runMain (dir : List Name) (retain : Nat) (newName : Name)
    (cfgIgnore cliIgnore : List Name) (prog : Name) (status : ChildStatus)
    (delOk : Name → Bool) (outR errR : TeeOutcome) : InvocationResult :=
  let dirAfter := afterRotate dir retain delOk ++ [newName]
  if bypassDecision (mergeIgnore cfgIgnore cliIgnore) prog then
    { dir := dirAfter, created := some newName, bypassed := true,
      outcome := .exited (status.code.getD 1) }
  else
    { dir := dirAfter, created := some newName, bypassed := false,
      outcome := supervisorFinish outR errR status }

/-! ## Order lemmas for `nameLe` -/

theorem nameLe_refl (a : Name) : nameLe a a = true := by
  induction a with
  | nil => rfl
  | cons x xs ih => simp [nameLe, ih]

theorem nameLe_total (a b : Name) : nameLe a b = true ∨ nameLe b a = true := by
  induction a generalizing b with
  | nil => left; rfl
  | cons x xs ih =>
    cases b with
    | nil => right; rfl
    | cons y ys =>
      by_cases hxy : x < y
      · left; simp [nameLe, hxy]
      · by_cases hyx : y < x
        · right; simp [nameLe, hyx]
        · have ihb := ih ys
          cases ihb with
          | inl h => left; simp [nameLe, hxy, hyx, h]
          | inr h => right; simp [nameLe, hxy, hyx, h]

theorem nameLe_trans {a b c : Name} (hab : nameLe a b = true)
    (hbc : nameLe b c = true) : nameLe a c = true := by
  induction a generalizing b c with
  | nil => rfl
  | cons x xs ih =>
    cases b with
    | nil => simp [nameLe] at hab
    | cons y ys =>
      cases c with
      | nil => simp [nameLe] at hbc
      | cons z zs =>
        by_cases hxy : x < y <;> by_cases hyx : y < x <;>
          by_cases hyz : y < z <;> by_cases hzy : z < y <;>
            simp_all [nameLe] <;> first
              | omega
              | (constructor <;> omega)
              | (exact Or.inr ⟨by omega, ih hab hbc⟩)

theorem nameLe_antisymm {a b : Name} (hab : nameLe a b = true)
    (hba : nameLe b a = true) : a = b := by
  induction a generalizing b with
  | nil =>
    cases b with
    | nil => rfl
    | cons y ys => simp [nameLe] at hba
  | cons x xs ih =>
    cases b with
    | nil => simp [nameLe] at hab
    | cons y ys =>
      by_cases hxy : x < y <;> by_cases hyx : y < x <;>
        simp_all [nameLe]
      · omega
      · exact ⟨by omega, ih hab hba⟩

/-! ## Sorting and deduplication lemmas -/

theorem insertSorted_perm (x : Name) (l : List Name) :
    List.Perm (insertSorted x l) (x :: l) := by
  induction l with
  | nil => exact List.Perm.refl _
  | cons y ys ih =>
    by_cases h : nameLe x y = true
    · simp [insertSorted, h]
    · simp only [insertSorted, h]
      exact List.Perm.trans (List.Perm.cons y ih) (List.Perm.swap x y ys)

theorem sortNames_perm (l : List Name) : List.Perm (sortNames l) l := by
  induction l with
  | nil => exact List.Perm.refl _
  | cons x xs ih =>
    exact List.Perm.trans (insertSorted_perm x (sortNames xs)) (List.Perm.cons x ih)

theorem insertSorted_pairwise {x : Name} {l : List Name}
    (h : List.Pairwise NLe l) : List.Pairwise NLe (insertSorted x l) := by
  induction l with
  | nil => simp [insertSorted, List.Pairwise]
  | cons y ys ih =>
    by_cases hxy : nameLe x y = true
    · simp only [insertSorted, hxy, if_true]
      refine List.Pairwise.cons ?_ h
      intro b hb
      cases hb with
      | head => exact hxy
      | tail _ hmem => exact nameLe_trans hxy ((List.pairwise_cons.mp h).1 b hmem)
    · simp only [insertSorted, hxy]
      have hyx : nameLe y x = true := by
        cases nameLe_total x y with
        | inl h1 => exact absurd h1 hxy
        | inr h1 => exact h1
      have hys := (List.pairwise_cons.mp h).2
      refine List.Pairwise.cons ?_ (ih hys)
      intro b hb
      have hb' : b ∈ x :: ys := (insertSorted_perm x ys).mem_iff.mp hb
      cases hb' with
      | head => exact hyx
      | tail _ hmem => exact (List.pairwise_cons.mp h).1 b hmem

theorem sortNames_pairwise (l : List Name) : List.Pairwise NLe (sortNames l) := by
  induction l with
  | nil => simp [sortNames, List.Pairwise]
  | cons x xs ih => exact insertSorted_pairwise ih

theorem dedupConsec_mem {x : Name} : ∀ {l : List Name},
    x ∈ dedupConsec l ↔ x ∈ l
  | [] => Iff.rfl
  | [a] => Iff.rfl
  | a :: b :: rest => by
    by_cases hab : a = b
    · subst hab
      simp only [dedupConsec, if_true]
      rw [dedupConsec_mem]
      simp only [List.mem_cons]
      tauto
    · simp only [dedupConsec, hab, if_false, List.mem_cons]
      rw [dedupConsec_mem]
      simp only [List.mem_cons]

theorem dedupConsec_nodup : ∀ {l : List Name},
    List.Pairwise NLe l → (dedupConsec l).Nodup
  | [], _ => List.nodup_nil
  | [a], _ => List.nodup_cons.mpr ⟨List.not_mem_nil a, List.nodup_nil⟩
  | a :: b :: rest, h => by
    have htail : List.Pairwise NLe (b :: rest) := (List.pairwise_cons.mp h).2
    by_cases hab : a = b
    · simp only [dedupConsec, hab, if_true]
      exact dedupConsec_nodup htail
    · simp only [dedupConsec, hab, if_false]
      refine List.nodup_cons.mpr ⟨?_, dedupConsec_nodup htail⟩
      intro hmem
      have hmem' : a ∈ b :: rest := dedupConsec_mem.mp hmem
      have hba : nameLe b a = true := by
        cases hmem' with
        | head => exact absurd rfl hab
        | tail _ hmem2 => exact (List.pairwise_cons.mp htail).1 a hmem2
      have hab' : nameLe a b = true :=
        (List.pairwise_cons.mp h).1 b (List.mem_cons_self b rest)
      exact hab (nameLe_antisymm hab' hba)

/-! ## Rotation-loop lemmas -/

theorem rotateLoop_eq_take (retain : Nat) : ∀ l : List Name,
    rotateLoop retain l = l.take (l.length - retain)
  | [] => by simp [rotateLoop]
  | old :: rest => by
    by_cases h : rest.length + 1 > retain
    · have hk : (old :: rest).length - retain = (rest.length - retain) + 1 := by
        simp only [List.length_cons]; omega
      simp only [rotateLoop, h, if_true, hk, List.take_succ_cons,
        rotateLoop_eq_take retain rest]
    · have hk : rest.length + 1 - retain = 0 := by omega
      simp [rotateLoop, h, hk]

theorem rotateLoopRun_eq_map (retain : Nat) (delOk : Name → Bool) :
    ∀ l : List Name,
      rotateLoopRun retain delOk l = (rotateLoop retain l).map (fun n => (n, delOk n))
  | [] => by simp [rotateLoopRun, rotateLoop]
  | old :: rest => by
    by_cases h : rest.length + 1 > retain
    · simp [rotateLoopRun, rotateLoop, h, rotateLoopRun_eq_map retain delOk rest]
    · simp [rotateLoopRun, rotateLoop, h]

/-! ## Loop equations for the fuelled tee definitions -/

theorem linesValidF_fuel : ∀ (f1 f2 : Nat) (s : List Nat),
    s.length ≤ f1 → s.length ≤ f2 → linesValidF f1 s = linesValidF f2 s
  | 0, f2, s, h1, _ => by
    have hs : s = [] := List.length_eq_zero.mp (Nat.le_zero.mp h1)
    subst hs
    cases f2 <;> rfl
  | f1 + 1, f2, [], _, _ => by cases f2 <;> rfl
  | f1 + 1, f2, b :: rest0, h1, h2 => by
    cases f2 with
    | zero => simp at h2
    | succ g =>
      have hlt := takeLine_snd_lt (b :: rest0) (by simp)
      simp only [List.length_cons] at h1 h2 hlt
      simp only [linesValidF]
      rw [linesValidF_fuel f1 g (takeLine (b :: rest0)).2 (by omega) (by omega)]

theorem linesValid_nil : linesValid [] = true := rfl

theorem linesValid_cons (b : Nat) (rest0 : List Nat) :
    linesValid (b :: rest0) =
      (utf8Valid (takeLine (b :: rest0)).1 && linesValid (takeLine (b :: rest0)).2) := by
  have hlt := takeLine_snd_lt (b :: rest0) (by simp)
  simp only [linesValid, List.length_cons, linesValidF]
  rw [linesValidF_fuel rest0.length (takeLine (b :: rest0)).2.length
    (takeLine (b :: rest0)).2 (by simp only [List.length_cons] at hlt; omega) (le_refl _)]

theorem teeRunF_fuel {termOk logOk : Nat → Bool} : ∀ (f1 f2 i : Nat) (s : List Nat),
    s.length ≤ f1 → s.length ≤ f2 →
    teeRunF termOk logOk f1 i s = teeRunF termOk logOk f2 i s
  | 0, f2, _, s, h1, _ => by
    have hs : s = [] := List.length_eq_zero.mp (Nat.le_zero.mp h1)
    subst hs
    cases f2 <;> rfl
  | f1 + 1, f2, _, [], _, _ => by cases f2 <;> rfl
  | f1 + 1, f2, i, b :: rest0, h1, h2 => by
    cases f2 with
    | zero => simp at h2
    | succ g =>
      have hlt := takeLine_snd_lt (b :: rest0) (by simp)
      simp only [List.length_cons] at h1 h2 hlt
      simp only [teeRunF]
      rw [teeRunF_fuel f1 g (i + 1) (takeLine (b :: rest0)).2 (by omega) (by omega)]

theorem teeRun_nil (termOk logOk : Nat → Bool) (i : Nat) :
    teeRun termOk logOk i [] = .done [] [] := rfl

theorem teeRun_cons (termOk logOk : Nat → Bool) (i b : Nat) (rest0 : List Nat) :
    teeRun termOk logOk i (b :: rest0) =
      (if utf8Valid (takeLine (b :: rest0)).1 then
        if termOk i then
          if logOk i then
            match teeRun termOk logOk (i + 1) (takeLine (b :: rest0)).2 with
            | .done t l =>
              .done ((takeLine (b :: rest0)).1 ++ t) ((takeLine (b :: rest0)).1 ++ l)
            | .panicked t l =>
              .panicked ((takeLine (b :: rest0)).1 ++ t) ((takeLine (b :: rest0)).1 ++ l)
          else .panicked (takeLine (b :: rest0)).1 []
        else .panicked [] []
      else .done [] []) := by
  have hlt := takeLine_snd_lt (b :: rest0) (by simp)
  simp only [teeRun, List.length_cons, teeRunF]
  rw [@teeRunF_fuel termOk logOk rest0.length (takeLine (b :: rest0)).2.length (i + 1)
    (takeLine (b :: rest0)).2 (by simp only [List.length_cons] at hlt; omega) (le_refl _)]

/-! ## Claims -/

/-- Claim C1: the spec says that with `retain = 2` three consecutive captured
invocations leave exactly 2 log files, the oldest deleted, and that the
recognized log-file count stays `≤ retain` after every invocation.  The code
violates this: `rotate_old` runs *before* the new log file is created, so
starting from an empty directory the three invocations (fresh names `1.log`,
`2.log`, `3.log`, all deletions succeeding, child exiting 0) leave all three
files on disk — 3 recognized log files, the oldest `1.log` still present. -/
theorem retention_exceeded_after_three_runs :
    (runMain
        (runMain
          (runMain [] 2 [49, 46, 108, 111, 103] [] [] [120] ⟨some 0⟩
            (fun _ => true) (.done [] []) (.done [] [])).dir
          2 [50, 46, 108, 111, 103] [] [] [120] ⟨some 0⟩
          (fun _ => true) (.done [] []) (.done [] [])).dir
        2 [51, 46, 108, 111, 103] [] [] [120] ⟨some 0⟩
        (fun _ => true) (.done [] []) (.done [] [])).dir
      = [[49, 46, 108, 111, 103], [50, 46, 108, 111, 103], [51, 46, 108, 111, 103]] ∧
    (([[49, 46, 108, 111, 103], [50, 46, 108, 111, 103], [51, 46, 108, 111, 103]]
        : List Name).filter isLogName).length = 3 := by
  decide

/-- Claim C2: the spec says an invocation of an ignored program creates no log
file and leaves the directory unchanged.  The code violates this: the log file
is created (and rotation runs) *before* the ignore check.  Concretely, with
directory `{a.log, b.log, c.log}`, `retain = 2`, fresh name `d.log` and ignored
program `vim`: the invocation is bypassed, yet `d.log` was created and `a.log`
was rotated away — the directory changed to `{b.log, c.log, d.log}`. -/
theorem bypass_still_creates_logfile :
    runMain [[97, 46, 108, 111, 103], [98, 46, 108, 111, 103], [99, 46, 108, 111, 103]]
        2 [100, 46, 108, 111, 103] [] [[118, 105, 109]] [118, 105, 109] ⟨some 0⟩
        (fun _ => true) (.done [] []) (.done [] []) =
      { dir := [[98, 46, 108, 111, 103], [99, 46, 108, 111, 103], [100, 46, 108, 111, 103]],
        created := some [100, 46, 108, 111, 103],
        bypassed := true,
        outcome := .exited 0 } := by
  decide

/-- Claim C3, counterexample: the tee thread does not copy every finite byte
stream.  For the one-byte stream `0xFF` (not valid UTF-8) `read_line` fails,
`unwrap_or(0)` ends the loop, and the log receives nothing. -/
theorem tee_drops_invalid_utf8 :
    (teeRun (fun _ => true) (fun _ => true) 0 [255]).logBytes ≠ [255] := by
  decide

/-- Claim C4, counterexample: a failed log write does abort the supervisor and
does suppress further terminal output.  On stream `"h\ni\n"` with the first
log write failing, the thread panics after writing only `"h\n"` to the
terminal (the second line never reaches it), and the supervisor — child exited
0 — panics on `join().unwrap()` instead of exiting 0. -/
theorem logfail_aborts_supervisor :
    (teeRun (fun _ => true) (fun i => i != 0) 0 [104, 10, 105, 10]).termBytes
        ≠ [104, 10, 105, 10] ∧
    supervisorFinish (teeRun (fun _ => true) (fun i => i != 0) 0 [104, 10, 105, 10])
        (.done [] []) ⟨some 0⟩ ≠ .exited 0 := by
  decide

/-- Claim C5, counterexample: rotation can return an error to its caller.
`rotate_old` begins with `fs::read_dir(dir)?`; when listing the directory
fails (here with error 13), the function propagates that error instead of
returning `Ok`. -/
theorem rotate_errors_on_unlistable_dir :
    (rotate_old_run (.error 13) 20 (fun _ => true)).isOk = false := by
  decide

/-- Claim C5, amended: once the directory listing succeeds, rotation never
returns an error: it returns `Ok` for every directory content, retention value
and pattern of `remove_file` failures, and a failed deletion is swallowed —
the recorded attempts are exactly the names `rotate_old` selects, independent
of which deletions fail, so no failure aborts rotation of the rest. -/
theorem rotate_ok_when_listing_succeeds (entries : List Name) (retain : Nat)
    (delOk : Name → Bool) :
    (rotate_old_run (.ok entries) retain delOk).isOk = true ∧
    rotate_old_run (.ok entries) retain delOk =
      .ok ((rotate_old entries retain).map (fun n => (n, delOk n))) := by
  constructor
  · rfl
  · simp only [rotate_old_run, rotate_old, rotateLoopRun_eq_map]

/-- Claim C6: for every invocation — bypass or captured — whose tee threads
did not panic, the supervisor exits with the child's exit code when one is
available, and with the fixed fallback code 1 when the child was terminated
abnormally (`status.code()` is `None`). -/
theorem exit_code_propagation (dir : List Name) (retain : Nat) (newName : Name)
    (cfgIgnore cliIgnore : List Name) (prog : Name) (status : ChildStatus)
    (delOk : Name → Bool) (outR errR : TeeOutcome)
    (hout : outR.isPanic = false) (herr : errR.isPanic = false) :
    (∀ c, status.code = some c →
      (runMain dir retain newName cfgIgnore cliIgnore prog status delOk outR errR).outcome
        = .exited c) ∧
    (status.code = none →
      (runMain dir retain newName cfgIgnore cliIgnore prog status delOk outR errR).outcome
        = .exited 1) := by
  constructor
  · intro c hc
    simp [runMain, supervisorFinish, hout, herr, hc]
    split <;> rfl
  · intro hc
    simp [runMain, supervisorFinish, hout, herr, hc]
    split <;> rfl

/-- Witness for `exit_code_propagation`: a captured invocation whose child
exited with code 7 makes the supervisor exit with code 7, and one terminated
by a signal makes it exit with code 1. -/
theorem exit_code_propagation_witness :
    (runMain [] 20 [49, 46, 108, 111, 103] [] [] [120] ⟨some 7⟩
        (fun _ => true) (.done [] []) (.done [] [])).outcome = .exited 7 ∧
    (runMain [] 20 [49, 46, 108, 111, 103] [] [] [120] ⟨none⟩
        (fun _ => true) (.done [] []) (.done [] [])).outcome = .exited 1 := by
  constructor
  · exact (exit_code_propagation [] 20 [49, 46, 108, 111, 103] [] [] [120] ⟨some 7⟩
      (fun _ => true) (.done [] []) (.done [] []) rfl rfl).1 7 rfl
  · exact (exit_code_propagation [] 20 [49, 46, 108, 111, 103] [] [] [120] ⟨none⟩
      (fun _ => true) (.done [] []) (.done [] []) rfl rfl).2 rfl

/-- Claim C8, counterexample: the bypass decision does not match by base
command name.  With ignore set `{vim}`, invoking the same program as
`/usr/bin/vim` — a path whose base name is exactly `vim` — is not bypassed,
because `main` compares `opts.cmd[0]` to each entry by full-string equality. -/
theorem bypass_misses_path_invocation :
    baseNameSpec [47, 117, 115, 114, 47, 98, 105, 110, 47, 118, 105, 109]
        = [118, 105, 109] ∧
    bypassDecision (mergeIgnore [] [[118, 105, 109]])
        [47, 117, 115, 114, 47, 98, 105, 110, 47, 118, 105, 109] = false := by
  decide

/-- Claim C8, amended: the bypass decision is an exact full-string match — for
every merged ignore set, bypass mode is chosen precisely when `opts.cmd[0]`,
as given, equals one of the configured or CLI ignore entries. -/
theorem bypass_exact_match (cfgIgnore cliIgnore : List Name) (prog : Name) :
    bypassDecision (mergeIgnore cfgIgnore cliIgnore) prog = true ↔
      (prog ∈ cfgIgnore ∨ prog ∈ cliIgnore) := by
  unfold bypassDecision
  rw [List.any_eq_true]
  constructor
  · rintro ⟨p, hp, hpe⟩
    have : p = prog := by simpa using hpe
    subst this
    have : p ∈ cfgIgnore ++ cliIgnore :=
      (sortNames_perm _).mem_iff.mp (dedupConsec_mem.mp hp)
    simpa using this
  · intro h
    refine ⟨prog, ?_, by simp⟩
    apply dedupConsec_mem.mpr
    apply (sortNames_perm _).mem_iff.mpr
    simpa using h

/-- Witness for `bypass_exact_match`: `vim` itself, given plainly as the
command, is bypassed when the CLI ignore list contains `vim`. -/
theorem bypass_exact_match_witness :
    bypassDecision (mergeIgnore [] [[118, 105, 109]]) [118, 105, 109] = true :=
  (bypass_exact_match [] [[118, 105, 109]] [118, 105, 109]).mpr (Or.inr (by decide))

theorem tee_fidelity_aux : ∀ (n : Nat) (s : List Nat), s.length ≤ n →
    linesValid s = true →
    ∀ i, teeRun (fun _ => true) (fun _ => true) i s = .done s s := by
  intro n
  induction n with
  | zero =>
    intro s hs _ i
    have h0 : s = [] := List.length_eq_zero.mp (Nat.le_zero.mp hs)
    subst h0
    exact teeRun_nil _ _ i
  | succ n ih =>
    intro s hs hv i
    cases s with
    | nil => exact teeRun_nil _ _ i
    | cons b rest0 =>
      have hlt := takeLine_snd_lt (b :: rest0) (by simp)
      rw [linesValid_cons, Bool.and_eq_true] at hv
      have hrec := ih (takeLine (b :: rest0)).2
        (by simp only [List.length_cons] at hs hlt; omega) hv.2 (i + 1)
      rw [teeRun_cons]
      simp [hv.1, hrec, takeLine_append]

/-- Claim C3, amended: for every finite source byte stream all of whose
`read_line` units are valid UTF-8 — in particular any stream of UTF-8 text,
with or without a trailing newline — the tee thread terminates normally having
written to the log (and to the terminal) exactly the bytes it read from the
source, in order, with nothing dropped. -/
theorem tee_fidelity_valid_utf8 (s : List Nat) (h : linesValid s = true) (i : Nat) :
    teeRun (fun _ => true) (fun _ => true) i s = .done s s :=
  tee_fidelity_aux s.length s (le_refl _) h i

/-- Witness for `tee_fidelity_valid_utf8`: the stream `"hi\n!"` (a full line
plus trailing bytes with no newline) is copied byte-for-byte to terminal and log. -/
theorem tee_fidelity_valid_utf8_witness :
    linesValid [104, 105, 10, 33] = true ∧
    teeRun (fun _ => true) (fun _ => true) 0 [104, 105, 10, 33]
      = .done [104, 105, 10, 33] [104, 105, 10, 33] :=
  ⟨by decide, tee_fidelity_valid_utf8 [104, 105, 10, 33] (by decide) 0⟩

/-- Claim C4, amended: when the log write of the first unit fails (the
terminal write having succeeded), the broadcaster thread panics at that point:
the terminal receives only that first unit — later units are suppressed — the
log receives nothing, and the supervisor, joining the panicked thread, itself
panics instead of propagating the child's exit status. -/
theorem logfail_panics_broadcaster_and_supervisor (s line rest : List Nat)
    (termOk logOk : Nat → Bool) (errR : TeeOutcome) (status : ChildStatus)
    (hs : s ≠ []) (htl : takeLine s = (line, rest)) (hv : utf8Valid line = true)
    (hterm : termOk 0 = true) (hlog : logOk 0 = false) :
    teeRun termOk logOk 0 s = .panicked line [] ∧
    supervisorFinish (teeRun termOk logOk 0 s) errR status = .panicked := by
  cases s with
  | nil => exact absurd rfl hs
  | cons b rest0 =>
    have h1 : teeRun termOk logOk 0 (b :: rest0) = .panicked line [] := by
      rw [teeRun_cons, htl]
      simp [hv, hterm, hlog]
    refine ⟨h1, ?_⟩
    rw [h1]
    simp [supervisorFinish, TeeOutcome.isPanic]

/-- Witness for `logfail_panics_broadcaster_and_supervisor`: stream `"h\n"`
with every log write failing — the thread panics with terminal output `"h\n"`
and empty log, and the supervisor ends panicked although the child exited 0. -/
theorem logfail_panics_witness :
    takeLine [104, 10] = ([104, 10], []) ∧
    utf8Valid [104, 10] = true ∧
    teeRun (fun _ => true) (fun _ => false) 0 [104, 10] = .panicked [104, 10] [] ∧
    supervisorFinish (teeRun (fun _ => true) (fun _ => false) 0 [104, 10])
      (.done [] []) ⟨some 0⟩ = .panicked := by
  have h := logfail_panics_broadcaster_and_supervisor [104, 10] [104, 10] []
    (fun _ => true) (fun _ => false) (.done [] []) ⟨some 0⟩
    (by decide) (by decide) (by decide) rfl rfl
  exact ⟨by decide, by decide, h.1, h.2⟩

/-- Claim C9: the merged ignore list has exactly the membership of the union
of the config-file list and the CLI list — duplicates are collapsed (the
result has no duplicates) and, membership being characterised by membership of
the inputs alone, the order of the inputs cannot affect it. -/
theorem ignore_merge_union (cfgIgnore cliIgnore : List Name) :
    (∀ x : Name, x ∈ mergeIgnore cfgIgnore cliIgnore ↔
      (x ∈ cfgIgnore ∨ x ∈ cliIgnore)) ∧
    (mergeIgnore cfgIgnore cliIgnore).Nodup := by
  constructor
  · intro x
    unfold mergeIgnore
    rw [dedupConsec_mem, (sortNames_perm _).mem_iff, List.mem_append]
  · exact dedupConsec_nodup (sortNames_pairwise _)

/-- Witness for `ignore_merge_union`: merging `[vim, vim]` with `[a]` yields a
duplicate-free list containing `vim`. -/
theorem ignore_merge_union_witness :
    [118, 105, 109] ∈ mergeIgnore [[118, 105, 109], [118, 105, 109]] [[97]] ∧
    (mergeIgnore [[118, 105, 109], [118, 105, 109]] [[97]]).Nodup :=
  ⟨((ignore_merge_union [[118, 105, 109], [118, 105, 109]] [[97]]).1 _).mpr
      (Or.inl (by decide)),
    (ignore_merge_union [[118, 105, 109], [118, 105, 109]] [[97]]).2⟩

/-- Claim C10: rotation only ever attempts to delete entries whose extension
is exactly `log`; every other entry of the directory — `foo.txt`,
`foo.log.bak`, hidden names like `.log`, subdirectory names without the
extension — is still present after rotation, for every retention value and
every pattern of deletion outcomes. -/
theorem rotate_deletes_only_log_ext (dir : List Name) (retain : Nat)
    (delOk : Name → Bool) :
    (∀ e ∈ rotate_old dir retain, isLogName e = true) ∧
    (∀ e ∈ dir, isLogName e = false → e ∈ afterRotate dir retain delOk) := by
  have hlog : ∀ e ∈ rotate_old dir retain, isLogName e = true := by
    intro e he
    unfold rotate_old at he
    rw [rotateLoop_eq_take] at he
    have h1 : e ∈ sortNames (dir.filter isLogName) := List.mem_of_mem_take he
    have h2 : e ∈ dir.filter isLogName := (sortNames_perm _).mem_iff.mp h1
    exact (List.mem_filter.mp h2).2
  refine ⟨hlog, ?_⟩
  intro e he hnot
  unfold afterRotate
  rw [List.mem_filter]
  refine ⟨he, ?_⟩
  have hmem : e ∉ rotate_old dir retain := by
    intro hm
    rw [hlog e hm] at hnot
    exact absurd hnot (by simp)
  have hcont : (rotate_old dir retain).contains e = false := by
    have := List.elem_eq_mem e (rotate_old dir retain)
    simpa [List.contains, hmem] using this
  simp [hcont]
  exact Or.inl hmem

/-- Witness for `rotate_deletes_only_log_ext`: on `{a.log, b.txt, c.log}` with
`retain = 1`, the attempted deletion `a.log` has the `log` extension, and
`b.txt` survives rotation. -/
theorem rotate_deletes_only_log_ext_witness :
    [97, 46, 108, 111, 103] ∈
      rotate_old [[97, 46, 108, 111, 103], [98, 46, 116, 120, 116],
        [99, 46, 108, 111, 103]] 1 ∧
    isLogName [97, 46, 108, 111, 103] = true ∧
    isLogName [98, 46, 116, 120, 116] = false ∧
    [98, 46, 116, 120, 116] ∈
      afterRotate [[97, 46, 108, 111, 103], [98, 46, 116, 120, 116],
        [99, 46, 108, 111, 103]] 1 (fun _ => true) := by
  refine ⟨by decide, ?_, by decide, ?_⟩
  · exact (rotate_deletes_only_log_ext [[97, 46, 108, 111, 103],
      [98, 46, 116, 120, 116], [99, 46, 108, 111, 103]] 1 (fun _ => true)).1 _ (by decide)
  · exact (rotate_deletes_only_log_ext [[97, 46, 108, 111, 103],
      [98, 46, 116, 120, 116], [99, 46, 108, 111, 103]] 1 (fun _ => true)).2 _
      (by decide) (by decide)

/-- Claim C7: when the recognized log-file count exceeds `retain`, rotation
attempts exactly the excess deletions, oldest-first in name order (the
attempt list is `nameLe`-sorted), and — deletions succeeding — the surviving
recognized log files number exactly `retain` and are precisely the
name-greatest ones: every deleted name precedes every survivor, and
deletions plus survivors repartition the original logs.  When the count is at
most `retain`, nothing is deleted and the log files are untouched. -/
theorem rotate_old_correct (dir : List Name) (retain : Nat) (hnd : dir.Nodup) :
    ((dir.filter isLogName).length ≤ retain →
      rotate_old dir retain = [] ∧
      (afterRotate dir retain (fun _ => true)).filter isLogName
        = dir.filter isLogName) ∧
    (retain < (dir.filter isLogName).length →
      (rotate_old dir retain).length = (dir.filter isLogName).length - retain ∧
      ((afterRotate dir retain (fun _ => true)).filter isLogName).length = retain ∧
      List.Perm
        (rotate_old dir retain ++
          (afterRotate dir retain (fun _ => true)).filter isLogName)
        (dir.filter isLogName) ∧
      List.Pairwise NLe (rotate_old dir retain) ∧
      (∀ d ∈ rotate_old dir retain,
        ∀ s ∈ (afterRotate dir retain (fun _ => true)).filter isLogName, NLe d s)) := by
  have hperm : List.Perm (sortNames (dir.filter isLogName)) (dir.filter isLogName) :=
    sortNames_perm _
  have hlen : (sortNames (dir.filter isLogName)).length
      = (dir.filter isLogName).length := hperm.length_eq
  have hsort : List.Pairwise NLe (sortNames (dir.filter isLogName)) :=
    sortNames_pairwise _
  have hrot : rotate_old dir retain
      = (sortNames (dir.filter isLogName)).take
          ((sortNames (dir.filter isLogName)).length - retain) :=
    rotateLoop_eq_take retain _
  -- survivors, rewritten as a filter of the recognized logs
  have hafter : (afterRotate dir retain (fun _ => true)).filter isLogName
      = (dir.filter isLogName).filter
          (fun e => !((rotate_old dir retain).contains e)) := by
    unfold afterRotate
    rw [List.filter_filter, List.filter_filter]
    apply List.filter_congr
    intro a _
    simp [Bool.and_comm]
  constructor
  · -- count within the bound: nothing is deleted, survivors are all logs
    intro hle
    have hk : (sortNames (dir.filter isLogName)).length - retain = 0 := by omega
    have hdel : rotate_old dir retain = [] := by
      rw [hrot, hk, List.take_zero]
    refine ⟨hdel, ?_⟩
    rw [hafter, hdel]
    apply List.filter_eq_self.mpr
    intro a _
    rfl
  · -- count above the bound
    intro hgt
    have hk1 : 1 ≤ (sortNames (dir.filter isLogName)).length - retain := by omega
    have hnodupLogs : (dir.filter isLogName).Nodup := hnd.filter _
    have hnodupSorted : (sortNames (dir.filter isLogName)).Nodup :=
      hperm.nodup_iff.mpr hnodupLogs
    have hdisj : (List.take ((sortNames (dir.filter isLogName)).length - retain)
          (sortNames (dir.filter isLogName))).Disjoint
        (List.drop ((sortNames (dir.filter isLogName)).length - retain)
          (sortNames (dir.filter isLogName))) := by
      have h0 := hnodupSorted
      rw [← List.take_append_drop ((sortNames (dir.filter isLogName)).length - retain)
        (sortNames (dir.filter isLogName))] at h0
      exact (List.nodup_append.mp h0).2.2
    -- the filter of the sorted list by non-membership of the deletions is its drop part
    have hfilterSorted : (sortNames (dir.filter isLogName)).filter
          (fun e => !((rotate_old dir retain).contains e))
        = List.drop ((sortNames (dir.filter isLogName)).length - retain)
            (sortNames (dir.filter isLogName)) := by
      conv_lhs =>
        rw [← List.take_append_drop ((sortNames (dir.filter isLogName)).length - retain)
          (sortNames (dir.filter isLogName))]
      rw [List.filter_append]
      have h1 : (List.take ((sortNames (dir.filter isLogName)).length - retain)
            (sortNames (dir.filter isLogName))).filter
            (fun e => !((rotate_old dir retain).contains e)) = [] := by
        apply List.filter_eq_nil_iff.mpr
        intro a ha
        have hmem : a ∈ rotate_old dir retain := by rw [hrot]; exact ha
        have hc : (rotate_old dir retain).contains a = true := by
          have := List.elem_eq_mem a (rotate_old dir retain)
          simpa [List.contains, hmem] using this
        simp [hc]
        exact hmem
      have h2 : (List.drop ((sortNames (dir.filter isLogName)).length - retain)
            (sortNames (dir.filter isLogName))).filter
            (fun e => !((rotate_old dir retain).contains e))
          = List.drop ((sortNames (dir.filter isLogName)).length - retain)
              (sortNames (dir.filter isLogName)) := by
        apply List.filter_eq_self.mpr
        intro a ha
        have hmem : a ∉ rotate_old dir retain := by
          rw [hrot]
          intro hmem2
          exact hdisj hmem2 ha
        have hc : (rotate_old dir retain).contains a = false := by
          have := List.elem_eq_mem a (rotate_old dir retain)
          simpa [List.contains, hmem] using this
        simp [hc]
        exact hmem
      rw [h1, h2, List.nil_append]
    have hsurv : List.Perm
        ((afterRotate dir retain (fun _ => true)).filter isLogName)
        (List.drop ((sortNames (dir.filter isLogName)).length - retain)
          (sortNames (dir.filter isLogName))) := by
      rw [hafter, ← hfilterSorted]
      exact (hperm.filter _).symm
    have hdellen : (rotate_old dir retain).length
        = (dir.filter isLogName).length - retain := by
      rw [hrot, List.length_take]
      omega
    refine ⟨hdellen, ?_, ?_, ?_, ?_⟩
    · rw [hsurv.length_eq, List.length_drop]
      omega
    · -- deletions ++ survivors is a permutation of the recognized logs
      have hp1 : List.Perm
          (rotate_old dir retain ++
            (afterRotate dir retain (fun _ => true)).filter isLogName)
          (List.take ((sortNames (dir.filter isLogName)).length - retain)
              (sortNames (dir.filter isLogName)) ++
            List.drop ((sortNames (dir.filter isLogName)).length - retain)
              (sortNames (dir.filter isLogName))) := by
        rw [hrot]
        exact List.Perm.append (List.Perm.refl _) hsurv
      rw [List.take_append_drop] at hp1
      exact hp1.trans hperm
    · rw [hrot]
      exact List.Pairwise.sublist (List.take_sublist _ _) hsort
    · intro d hd s hs
      have hcross := (List.pairwise_append.mp (by
        rw [List.take_append_drop ((sortNames (dir.filter isLogName)).length - retain)
          (sortNames (dir.filter isLogName))]
        exact hsort)).2.2
      have hd' : d ∈ List.take ((sortNames (dir.filter isLogName)).length - retain)
          (sortNames (dir.filter isLogName)) := by rw [hrot] at hd; exact hd
      have hs' : s ∈ List.drop ((sortNames (dir.filter isLogName)).length - retain)
          (sortNames (dir.filter isLogName)) := hsurv.mem_iff.mp hs
      exact hcross d hd' s hs'


/-- Witness for `rotate_old_correct`: on `{b.log, a.log, c.log, x.txt}` with
`retain = 1` there are 3 recognized logs, so 2 deletions are attempted, in
ascending name order. -/
theorem rotate_old_correct_witness :
    ([[98, 46, 108, 111, 103], [97, 46, 108, 111, 103], [99, 46, 108, 111, 103],
        [120, 46, 116, 120, 116]] : List Name).Nodup ∧
    1 < (([[98, 46, 108, 111, 103], [97, 46, 108, 111, 103], [99, 46, 108, 111, 103],
        [120, 46, 116, 120, 116]] : List Name).filter isLogName).length ∧
    (rotate_old [[98, 46, 108, 111, 103], [97, 46, 108, 111, 103],
        [99, 46, 108, 111, 103], [120, 46, 116, 120, 116]] 1).length =
      (([[98, 46, 108, 111, 103], [97, 46, 108, 111, 103], [99, 46, 108, 111, 103],
        [120, 46, 116, 120, 116]] : List Name).filter isLogName).length - 1 ∧
    List.Pairwise NLe (rotate_old [[98, 46, 108, 111, 103], [97, 46, 108, 111, 103],
        [99, 46, 108, 111, 103], [120, 46, 116, 120, 116]] 1) := by
  have h := rotate_old_correct [[98, 46, 108, 111, 103], [97, 46, 108, 111, 103],
    [99, 46, 108, 111, 103], [120, 46, 116, 120, 116]] 1 (by decide)
  exact ⟨by decide, by decide, (h.2 (by decide)).1, (h.2 (by decide)).2.2.2.1⟩

end Stash
